import Mathlib

/-!
Verification of the pdfscan repository's search and archival engine.

The program's strings are Rust `String`/`&str` values: UTF-8 byte buffers.
We model a string as a `List Char` of Unicode scalar values together with
its UTF-8 byte image (`encodeStr`), and model every offset-manipulating
operation of the source at the byte level, exactly as Rust executes it
(`str::find` yields byte offsets, `saturating_sub` is `Nat` subtraction,
string slicing panics on a non-boundary index).  A Rust panic is modelled
as `none` / a dedicated abnormal constructor.
-/

/-- UTF-8 encoding of a single Unicode scalar value, as a list of byte
values (each `< 256`).  Standard 1–4 byte encoding. -/
def encodeChar (c : Char) : List Nat :=
  let n := c.toNat
  if n < 0x80 then [n]
  else if n < 0x800 then [0xC0 + n / 64, 0x80 + n % 64]
  else if n < 0x10000 then
    [0xE0 + n / 4096, 0x80 + (n / 64) % 64, 0x80 + n % 64]
  else
    [0xF0 + n / 262144, 0x80 + (n / 4096) % 64, 0x80 + (n / 64) % 64, 0x80 + n % 64]

/-- UTF-8 byte image of a string (Rust `str::as_bytes`). -/
def encodeStr (s : List Char) : List Nat :=
  (s.map encodeChar).flatten

/-- Predicate `headedBy q s`: the byte list `q` is an initial segment of `s`.
This is how a candidate match position is tested. -/
def headedBy : List Nat → List Nat → Bool
  | [], _ => true
  | _ :: _, [] => false
  | a :: as, b :: bs => a = b && headedBy as bs

/-- Byte-level model of Rust `str::find` with a literal needle:
the least byte offset at which `needle`'s bytes begin in `hay`, if any.
On valid UTF-8 input (the only input the program feeds it) this agrees
with `str::find`, since a valid encoded needle can only match starting
at a character boundary. -/
def rustFind : List Nat → List Nat → Option Nat
  | [], needle => if headedBy needle [] then some 0 else none
  | b :: t, needle =>
    if headedBy needle (b :: t) then some 0
    else (rustFind t needle).map (· + 1)

/-- Byte sub-range `[i, j)` of a byte string (contents of `s[i..j]`). -/
def sliceBytes (b : List Nat) (i j : Nat) : List Nat :=
  (b.drop i).take (j - i)

/-- Rust `str::is_char_boundary` on the byte image: index 0, the total
length, or any index holding a non-continuation byte. -/
def isCharBoundary (b : List Nat) (i : Nat) : Bool :=
  i = 0 ||
    match b[i]? with
    | some x => decide (x < 0x80) || decide (0xC0 ≤ x)
    | none => decide (i = b.length)

/-- Rust string slicing `s[i..j]`: yields the byte range when `i ≤ j`
and both ends are character boundaries, and panics (`none`) otherwise. -/
def strSlice (b : List Nat) (i j : Nat) : Option (List Nat) :=
  if i ≤ j ∧ isCharBoundary b i ∧ isCharBoundary b j then
    some (sliceBytes b i j)
  else none

/-- Lowercase image of one scalar value, as Rust `char::to_lowercase`
yields it (possibly several scalars).  The table is the Unicode mapping
restricted to the characters exercised in this development: ASCII
`A`–`Z` map to `a`–`z`, U+0130 (`İ`) maps to the two scalars
U+0069 U+0307, and the remaining characters used here (ASCII, `あ`)
are uncased and map to themselves. -/
def rustToLowerChar (c : Char) : List Char :=
  if 65 ≤ c.toNat ∧ c.toNat ≤ 90 then [Char.ofNat (c.toNat + 32)]
  else if c.toNat = 0x130 then [Char.ofNat 0x69, Char.ofNat 0x307]
  else [c]

/-- Rust `str::to_lowercase`: concatenation of the per-character
lowercase images. -/
def toLowerStr (s : List Char) : List Char :=
  (s.map rustToLowerChar).flatten

/-- One match produced by `SearchPanel::search_in_text`
(`src/gui/search_panel.rs`, `struct MatchResult`): the context snippet
(kept as its UTF-8 bytes) and the byte position of the match. -/
structure MatchResult where
  text : List Nat
  position : Nat
deriving DecidableEq

/-- The case-folding step at the top of `search_in_text`: the query and
the text are lowercased exactly when the search is case-insensitive. -/
def foldCase (caseSensitive : Bool) (s : List Char) : List Char :=
  if caseSensitive then s else toLowerStr s

/-- The body of one iteration of the
`while let Some(pos) = search_text[start..].find(&query)` loop of
`SearchPanel::search_in_text` (search_panel.rs lines 264–280), at the
byte level; `recur` continues the loop after this iteration.  `qB` is the byte image of the (folded) query, `tB` of the
original text, `sB` of the (folded) search text; `start` is the byte
offset the scan resumes from.  Each found match at `actual` slices the
ORIGINAL text at `[actual - 40, min (actual + |q| + 40) |t|)` (Rust
`saturating_sub` is `Nat` subtraction); a slice boundary falling inside
a multi-byte character panics, modelled by `none`.  The loop advances by
`pos + |q|` bytes per iteration, so `|sB| + 1` fuel is enough whenever
the query is non-empty; an empty query would loop forever in the source
(fuel exhaustion also yields `none`), but both callers require a
non-empty query before searching. -/
def searchBody (qB tB sB : List Nat) (recur : Nat → Option (List MatchResult))
    (start : Nat) : Option (List MatchResult) :=
  match rustFind (sB.drop start) qB with
  | none => some []
  | some pos =>
    let actual := start + pos
    let cstart := actual - 40
    let cend := min (actual + qB.length + 40) tB.length
    match strSlice tB cstart cend with
    | none => none
    | some ctx =>
      match recur (actual + qB.length) with
      | none => none
      | some rest => some ({ text := ctx, position := actual } :: rest)

def searchLoop (qB tB sB : List Nat) : Nat → Nat → Option (List MatchResult)
  | 0, _ => none
  | fuel + 1, start => searchBody qB tB sB (searchLoop qB tB sB fuel) start

/-- Model of `SearchPanel::search_in_text` (search_panel.rs lines 250–283):
case-fold query and text as configured, then scan the folded text left
to right for non-overlapping occurrences, reporting for each one its
byte position in the folded text together with a context snippet sliced
out of the original text.  `none` models a panic. -/
def search_in_text (caseSensitive : Bool) (query text : List Char) :
    Option (List MatchResult) :=
  let q := foldCase caseSensitive query
  let s := foldCase caseSensitive text
  let sB := encodeStr s
  searchLoop (encodeStr q) (encodeStr text) sB (sB.length + 1) 0

/-- A document text whose only `q` sits at byte offset 80, with the
3-byte character `あ` occupying bytes 39–41: the context window start
`80 - 40 = 40` then falls inside `あ`. -/
def splitText : List Char :=
  List.replicate 39 'x' ++ ['あ'] ++ List.replicate 38 'x' ++ ['q']

/-- A UTF-8 continuation byte. -/
def isCont (b : Nat) : Bool := 0x80 ≤ b ∧ b < 0xC0

/-- Strict UTF-8 validation and decoding, as Rust `str::from_utf8`
accepts byte input: rejects continuation bytes in lead position,
overlong forms (leads 0xC0/0xC1, short 3- and 4-byte values), surrogate
values U+D800–U+DFFF, values above U+10FFFF (leads 0xF5 and up), and
truncated sequences.  `none` models `Utf8Error`. -/
def decodeUtf8 : List Nat → Option (List Char)
  | [] => some []
  | b :: t =>
    if b < 0x80 then (decodeUtf8 t).map (Char.ofNat b :: ·)
    else if b < 0xC2 then none
    else if b < 0xE0 then
      match t with
      | b₂ :: t₂ =>
        if isCont b₂ then
          (decodeUtf8 t₂).map (Char.ofNat ((b - 0xC0) * 64 + (b₂ - 0x80)) :: ·)
        else none
      | [] => none
    else if b < 0xF0 then
      match t with
      | b₂ :: b₃ :: t₃ =>
        if isCont b₂ ∧ isCont b₃ then
          let n := (b - 0xE0) * 4096 + (b₂ - 0x80) * 64 + (b₃ - 0x80)
          if n < 0x800 ∨ (0xD800 ≤ n ∧ n < 0xE000) then none
          else (decodeUtf8 t₃).map (Char.ofNat n :: ·)
        else none
      | _ => none
    else if b < 0xF5 then
      match t with
      | b₂ :: b₃ :: b₄ :: t₄ =>
        if isCont b₂ ∧ isCont b₃ ∧ isCont b₄ then
          let n := (b - 0xF0) * 262144 + (b₂ - 0x80) * 4096 +
            (b₃ - 0x80) * 64 + (b₄ - 0x80)
          if n < 0x10000 ∨ 0x110000 ≤ n then none
          else (decodeUtf8 t₄).map (Char.ofNat n :: ·)
        else none
      | _ => none
    else none

/-- Rust `str::contains` of one literal string in another, at the byte level:
the needle's bytes occur contiguously in the haystack's. -/
def rustContains (hay needle : List Nat) : Bool :=
  (rustFind hay needle).isSome

/-- One filesystem object as the walker hands it to a worker.  The walk
itself (`walkdir`, an external collaborator that already drops unreadable
entries via `filter_map(|e| e.ok())`) is out of scope; its per-root
output is the `List Entry` every theorem quantifies over.
`content` is the file's raw bytes, `none` when `std::fs::read` fails. -/
structure Entry where
  path : List Char
  is_file : Bool
  extension : Option (List Char)
  content : Option (List Nat)
deriving DecidableEq

/-- The literal extension the candidate filter compares against
(case-sensitively). -/
def pdfExt : List Char := ['p', 'd', 'f']

namespace Cli

/-- Failure cases of the CLI per-file check `search_phrase_in_pdf`
(main.rs lines 14–19): the read can fail, or the bytes can fail UTF-8
parsing. -/
inductive PdfError where
  | readErr
  | utf8Err
deriving DecidableEq

/-- CLI `search_phrase_in_pdf` (main.rs lines 14–19): read the file's raw
bytes, parse them as UTF-8 (erroring out if either step fails), and
report whether the resulting string contains the phrase. -/
def search_phrase_in_pdf (content : Option (List Nat)) (phrase : List Char) :
    Except PdfError Bool :=
  match content with
  | none => .error .readErr
  | some bytes =>
    match decodeUtf8 bytes with
    | none => .error .utf8Err
    | some _ => .ok (rustContains bytes (encodeStr phrase))

/-- One worker's body, `search_pdf_files` (main.rs lines 22–49) up to the
final mutex append: walk the root's entries in order; for each regular
file with (case-sensitive) extension `pdf`, push its path when the
phrase is empty (match-all shortcut, no content check), otherwise push
it exactly when the per-file check returns `Ok(true)`; on a check error
log and skip the file. -/
def search_pdf_files : List Entry → List Char → List (List Char)
  | [], _ => []
  | e :: es, phrase =>
    let rest := search_pdf_files es phrase
    if e.is_file then
      match e.extension with
      | some ext =>
        if ext = pdfExt then
          if phrase = [] then e.path :: rest
          else
            match search_phrase_in_pdf e.content phrase with
            | .ok true => e.path :: rest
            | .ok false => rest
            | .error _ => rest
        else rest
      | none => rest
    else rest

/-- The candidate filter of a root: regular files whose extension is
exactly `pdf`. -/
def candidate (e : Entry) : Bool :=
  e.is_file &&
    match e.extension with
    | some ext => decide (ext = pdfExt)
    | none => false

/-- The candidate paths of one root, in walk order. -/
def candPaths (es : List Entry) : List (List Char) :=
  (es.filter candidate).map (·.path)

/-- The shared aggregate after every worker has appended its local list
(main.rs lines 51–52, 133–149): each worker computes its list with no
shared state, then `results.extend(pdf_files)` under the mutex; the
handoff order of the workers is arbitrary, so the final vector is the
concatenation of the per-root lists in that order. -/
def aggregate (phrase : List Char) (order : List (List Entry)) :
    List (List Char) :=
  (order.map (fun es => search_pdf_files es phrase)).flatten

end Cli

namespace Cli

/-- Outcome of the archive step `zip_files` (main.rs lines 64–85).
`crashed` models a Rust panic (the `File::create(&path).unwrap()` on the
output archive); `ioErr` models returning `Err(ZipError::Io(..))` — the
`io::Error` wrapped there carries no file path. -/
inductive ZipResult where
  | crashed
  | ioErr
  | ok
deriving DecidableEq

/-- The per-file loop of `zip_files`: each input is opened and copied
into the archive; the first file whose open/read fails makes the whole
function return the error immediately (the `?` operator), leaving the
remaining files unprocessed. -/
def zipLoop : List (List Char × Option (List Nat)) → ZipResult
  | [] => .ok
  | (_, none) :: _ => .ioErr
  | (_, some _) :: rest => zipLoop rest

/-- Model of `zip_files` (main.rs lines 64–85): create the output archive —
a failure there is `.unwrap()`ed, i.e. a panic — then copy each input
file, failing with the first read error. -/
def zip_files (canCreate : Bool)
    (files : List (List Char × Option (List Nat))) : ZipResult :=
  if canCreate then zipLoop files else .crashed

/-- The tail of `main` (main.rs lines 151–164): the matched paths are
printed first (the first component, always the full aggregate), and only
then, when `-z` was given, the archive step runs on those same paths
(its outcome is the second component; `main` then `.expect`s it, so a
`ZipResult.ioErr` also ends the process — after the results were
printed). -/
def runMain (results : List (List Char)) (zipFlag : Bool) (canCreate : Bool)
    (readFile : List Char → Option (List Nat)) :
    List (List Char) × Option ZipResult :=
  (results,
   if zipFlag then
     some (zip_files canCreate (results.map (fun p => (p, readFile p))))
   else none)

/-- Outcome of the argument loop in `main` (main.rs lines 95–122).
`helpShown`: `-h` printed usage and returned; `invalidArg a`: the
diagnostic `Invalid argument: a` was printed and `main` returned before
any thread was spawned; `valueMissing`: `args[i + 1]` was indexed past
the end of the argument vector (a panic); `run phrase dirs zip`: the
loop finished (or was broken out of by `-z`) and the search proceeds. -/
inductive CliOutcome where
  | helpShown
  | invalidArg (a : List Char)
  | valueMissing
  | run (phrase : List Char) (dirs : List (List Char)) (zip : Bool)
deriving DecidableEq

def sFlag : List Char := ['-', 's']
def dFlag : List Char := ['-', 'd']
def zFlag : List Char := ['-', 'z']
def hFlag : List Char := ['-', 'h']

/-- The `while i < args.len()` loop of `main` (main.rs lines 95–122),
phrased over the arguments not yet scanned (the source indexes the
argument vector with a counter `i`; the list argument here is
`args[i..]`, and `args[i + 1]` exists exactly when the tail is
non-empty).  `-s`/`-d` consume the following argument; `-z` sets zip
mode and BREAKS out of the loop, so nothing after a `-z` is scanned;
`-h` prints usage and returns; anything else prints
`Invalid argument` and returns. -/
def parseLoop : List (List Char) → List Char → List (List Char) → CliOutcome
  | [], phrase, dirs => .run phrase dirs false
  | [a], phrase, dirs =>
    if a = sFlag then .valueMissing
    else if a = dFlag then .valueMissing
    else if a = zFlag then .run phrase dirs true
    else if a = hFlag then .helpShown
    else .invalidArg a
  | a :: v :: rest, phrase, dirs =>
    if a = sFlag then parseLoop rest v dirs
    else if a = dFlag then parseLoop rest phrase (dirs ++ [v])
    else if a = zFlag then .run phrase dirs true
    else if a = hFlag then .helpShown
    else .invalidArg a

/-- Argument handling of `main`: scan the arguments after the program
name (`i` starts at 1) with an empty phrase and no directories. -/
def parseArgs (userArgs : List (List Char)) : CliOutcome :=
  parseLoop userArgs [] []

end Cli

namespace Gui

/-- Failure cases of the GUI per-file check `search_phrase_in_pdf`
(search_panel.rs lines 481–487): the read can fail, or the external text
extractor (`pdf_extract::extract_text_from_mem`) can fail. -/
inductive PdfError where
  | readErr
  | extractErr
deriving DecidableEq

/-- GUI `search_phrase_in_pdf` (search_panel.rs lines 481–487): read the
file's raw bytes, run the external text extractor on them (`extract` is
the collaborator, `none` modelling its error), and report whether the
extracted text contains the phrase. -/
def search_phrase_in_pdf (extract : List Nat → Option (List Char))
    (content : Option (List Nat)) (phrase : List Char) :
    Except PdfError Bool :=
  match content with
  | none => .error .readErr
  | some bytes =>
    match extract bytes with
    | none => .error .extractErr
    | some text => .ok (rustContains (encodeStr text) (encodeStr phrase))

/-- GUI `search_files_in_directory` (search_panel.rs lines 454–478): walk the
directory's entries in order; for each regular file with extension
`pdf`, push its path when the check returns `Ok(true)`, skip it on
`Ok(false)`, and log and continue on `Err` (the loop is unaffected). -/
def search_files_in_directory (extract : List Nat → Option (List Char)) :
    List Entry → List Char → List (List Char)
  | [], _ => []
  | e :: es, phrase =>
    let rest := search_files_in_directory extract es phrase
    if e.is_file then
      match e.extension with
      | some ext =>
        if ext = pdfExt then
          match search_phrase_in_pdf extract e.content phrase with
          | .ok true => e.path :: rest
          | .ok false => rest
          | .error _ => rest
        else rest
      | none => rest
    else rest

/-- One entry of `search_results` in the panel
(search_panel.rs `struct SearchResult`). -/
structure SearchResult where
  file_path : List Char
  file_name : List Char
  match_count : Nat
  /-- the source names this field `matches`, a reserved word here -/
  matchList : List MatchResult
deriving DecidableEq

/-- Model of `Path::file_name().unwrap_or_default()` for ordinary
forward-slash paths: the last `/`-separated component. -/
def baseName (p : List Char) : List Char :=
  (p.splitOn '/').getLastD []

/-- The message `format!("Found occurrence in '{}'", file_name)`. -/
def foundMsg (name : List Char) : List Char :=
  ("Found occurrence in ".toList) ++ [Char.ofNat 39] ++ name ++ [Char.ofNat 39]

/-- The result-processing loop of the directory branch of
`SearchPanel::perform_search` (search_panel.rs lines 179–201): each
matching path becomes one `SearchResult` with `match_count: 1` and a
single placeholder `MatchResult` at position 0 ("We don't have detailed
match information when searching directories"). -/
def dirSearchResults (paths : List (List Char)) : List SearchResult :=
  paths.map fun p =>
    { file_path := p
      file_name := baseName p
      match_count := 1
      matchList := [{ text := encodeStr (foundMsg (baseName p)), position := 0 }] }

/-- The directory branch of `perform_search` end to end: find the
matching files, then wrap each in a placeholder result. -/
def perform_search_directory (extract : List Nat → Option (List Char))
    (es : List Entry) (phrase : List Char) : List SearchResult :=
  dirSearchResults (search_files_in_directory extract es phrase)

end Gui

/-- The left-to-right list of non-overlapping occurrences of the byte
needle `q` in the byte string `s`, the reference reading of the spec:
scan positions from the left; at a match record it and resume after the
matched bytes, otherwise advance one byte.  (Fuelled; `|s| + 1` fuel is
enough from position 0 for a non-empty needle.) -/
def occsFrom (q s : List Nat) : Nat → Nat → List Nat
  | 0, _ => []
  | fuel + 1, i =>
    if s.length < i + q.length then []
    else if headedBy q (s.drop i) then i :: occsFrom q s fuel (i + q.length)
    else occsFrom q s fuel (i + 1)

/-- The occurrence list of `q` in `s` (non-empty `q`). -/
def occurrences (q s : List Nat) : List Nat :=
  occsFrom q s (s.length + 1) 0

/-- A run of well-formed `-s <value>` / `-d <value>` argument pairs
(`true` for `-s`, `false` for `-d`). -/
def sdArgs : List (Bool × List Char) → List (List Char)
  | [] => []
  | (true, v) :: t => Cli.sFlag :: v :: sdArgs t
  | (false, v) :: t => Cli.dFlag :: v :: sdArgs t

/-! ### Facts about `headedBy` and `rustFind` -/

theorem headedBy_length {q s : List Nat} (h : headedBy q s = true) :
    q.length ≤ s.length := by
  induction q generalizing s with
  | nil => simp
  | cons a as ih =>
    cases s with
    | nil => simp [headedBy] at h
    | cons b bs =>
      simp only [headedBy, Bool.and_eq_true] at h
      simpa using ih h.2

theorem headedBy_take {q s : List Nat} (h : headedBy q s = true) :
    s.take q.length = q := by
  induction q generalizing s with
  | nil => simp
  | cons a as ih =>
    cases s with
    | nil => simp [headedBy] at h
    | cons b bs =>
      simp only [headedBy, Bool.and_eq_true, decide_eq_true_eq] at h
      simp [List.take_succ_cons, ih h.2, h.1]

theorem headedBy_nil_iff {q : List Nat} : headedBy q [] = true ↔ q = [] := by
  cases q <;> simp [headedBy]

theorem rustFind_nil {q : List Nat} (hq : q ≠ []) : rustFind [] q = none := by
  rw [rustFind, if_neg]
  simp [headedBy_nil_iff, hq]

theorem rustFind_bound {s q : List Nat} {p : Nat} (h : rustFind s q = some p) :
    p + q.length ≤ s.length := by
  induction s generalizing p with
  | nil =>
    rw [rustFind] at h
    by_cases hb : headedBy q [] = true
    · rw [if_pos hb] at h
      have h0 := headedBy_length hb
      have hp : p = 0 := by simpa using h.symm
      subst hp
      simpa using h0
    · rw [if_neg hb] at h
      exact absurd h (by simp)
  | cons b t ih =>
    rw [rustFind] at h
    by_cases hb : headedBy q (b :: t) = true
    · rw [if_pos hb] at h
      have h0 := headedBy_length hb
      have : p = 0 := by simpa using h.symm
      subst this
      simpa using h0
    · rw [if_neg hb] at h
      cases h' : rustFind t q with
      | none => rw [h'] at h; simp at h
      | some p' =>
        rw [h'] at h
        simp only [Option.map_some'] at h
        have := ih h'
        have : p = p' + 1 := by simpa using h.symm
        subst this
        simp only [List.length_cons]
        omega

theorem rustFind_headed {s q : List Nat} {p : Nat} (h : rustFind s q = some p) :
    headedBy q (s.drop p) = true := by
  induction s generalizing p with
  | nil =>
    rw [rustFind] at h
    by_cases hb : headedBy q [] = true
    · rw [if_pos hb] at h
      have : p = 0 := by simpa using h.symm
      subst this
      simpa using hb
    · rw [if_neg hb] at h
      exact absurd h (by simp)
  | cons b t ih =>
    rw [rustFind] at h
    by_cases hb : headedBy q (b :: t) = true
    · rw [if_pos hb] at h
      have : p = 0 := by simpa using h.symm
      subst this
      simpa using hb
    · rw [if_neg hb] at h
      cases h' : rustFind t q with
      | none => rw [h'] at h; simp at h
      | some p' =>
        rw [h'] at h
        simp only [Option.map_some'] at h
        have : p = p' + 1 := by simpa using h.symm
        subst this
        simpa using ih h'

theorem rustFind_cons_succ {b : Nat} {t q : List Nat} {p : Nat}
    (h : rustFind (b :: t) q = some (p + 1)) :
    rustFind t q = some p ∧ headedBy q (b :: t) = false := by
  rw [rustFind] at h
  by_cases hb : headedBy q (b :: t) = true
  · rw [if_pos hb] at h
    simp at h
  · rw [if_neg hb] at h
    cases h' : rustFind t q with
    | none => rw [h'] at h; simp at h
    | some p' =>
      rw [h'] at h
      simp only [Option.map_some', Option.some.injEq] at h
      have : p' = p := by omega
      subst this
      exact ⟨rfl, by simpa using hb⟩

theorem rustFind_none_drop {s q : List Nat} (hq : q ≠ [])
    (h : rustFind s q = none) : ∀ j, headedBy q (s.drop j) = false := by
  induction s with
  | nil =>
    intro j
    rw [List.drop_nil]
    cases q with
    | nil => exact absurd rfl hq
    | cons a as => simp [headedBy]
  | cons b t ih =>
    rw [rustFind] at h
    by_cases hb : headedBy q (b :: t) = true
    · rw [if_pos hb] at h; simp at h
    · rw [if_neg hb] at h
      have ht : rustFind t q = none := by
        cases h' : rustFind t q with
        | none => rfl
        | some p' => rw [h'] at h; simp at h
      intro j
      cases j with
      | zero => simpa using hb
      | succ j' => simpa using ih ht j'

/-! ### Facts about the occurrence list -/

theorem occsFrom_fuel {q s : List Nat} (hq : q ≠ []) :
    ∀ k₁ k₂ i, s.length + 1 - i ≤ k₁ → s.length + 1 - i ≤ k₂ →
      occsFrom q s k₁ i = occsFrom q s k₂ i := by
  have hqlen : 0 < q.length := List.length_pos.mpr hq
  intro k₁
  induction k₁ with
  | zero =>
    intro k₂ i h₁ h₂
    cases k₂ with
    | zero => rfl
    | succ m =>
      simp only [occsFrom]
      rw [if_pos (by omega)]
  | succ n ih =>
    intro k₂ i h₁ h₂
    cases k₂ with
    | zero =>
      simp only [occsFrom]
      rw [if_pos (by omega)]
    | succ m =>
      simp only [occsFrom]
      by_cases hg : s.length < i + q.length
      · rw [if_pos hg, if_pos hg]
      · rw [if_neg hg, if_neg hg]
        by_cases hh : headedBy q (s.drop i) = true
        · rw [if_pos hh, if_pos hh]
          rw [ih m (i + q.length) (by omega) (by omega)]
        · rw [if_neg hh, if_neg hh]
          exact ih m (i + 1) (by omega) (by omega)

theorem occsFrom_ge {q s : List Nat} :
    ∀ k i p, p ∈ occsFrom q s k i → i ≤ p := by
  intro k
  induction k with
  | zero => intro i p hp; simp [occsFrom] at hp
  | succ n ih =>
    intro i p hp
    simp only [occsFrom] at hp
    by_cases hg : s.length < i + q.length
    · rw [if_pos hg] at hp; simp at hp
    · rw [if_neg hg] at hp
      by_cases hh : headedBy q (s.drop i) = true
      · rw [if_pos hh] at hp
        rcases List.mem_cons.mp hp with rfl | hp'
        · exact le_refl _
        · have := ih _ _ hp'; omega
      · rw [if_neg hh] at hp
        have := ih _ _ hp; omega

theorem occsFrom_matchAt {q s : List Nat} :
    ∀ k i p, p ∈ occsFrom q s k i →
      headedBy q (s.drop p) = true ∧ p + q.length ≤ s.length := by
  intro k
  induction k with
  | zero => intro i p hp; simp [occsFrom] at hp
  | succ n ih =>
    intro i p hp
    simp only [occsFrom] at hp
    by_cases hg : s.length < i + q.length
    · rw [if_pos hg] at hp; simp at hp
    · rw [if_neg hg] at hp
      by_cases hh : headedBy q (s.drop i) = true
      · rw [if_pos hh] at hp
        rcases List.mem_cons.mp hp with rfl | hp'
        · exact ⟨hh, by omega⟩
        · exact ih _ _ hp'
      · rw [if_neg hh] at hp
        exact ih _ _ hp

theorem occsFrom_pairwise {q s : List Nat} :
    ∀ k i, (occsFrom q s k i).Pairwise (fun a b => a + q.length ≤ b) := by
  intro k
  induction k with
  | zero => intro i; simp [occsFrom]
  | succ n ih =>
    intro i
    simp only [occsFrom]
    by_cases hg : s.length < i + q.length
    · rw [if_pos hg]; simp
    · rw [if_neg hg]
      by_cases hh : headedBy q (s.drop i) = true
      · rw [if_pos hh]
        refine List.pairwise_cons.mpr ⟨fun b hb => ?_, ih _⟩
        have := occsFrom_ge n (i + q.length) b hb
        omega
      · rw [if_neg hh]
        exact ih _

theorem occsFrom_of_none {q s : List Nat} (hq : q ≠ []) :
    ∀ k i, rustFind (s.drop i) q = none → occsFrom q s k i = [] := by
  have hqlen : 0 < q.length := List.length_pos.mpr hq
  intro k
  induction k with
  | zero => intro i _; rfl
  | succ n ih =>
    intro i h
    simp only [occsFrom]
    by_cases hg : s.length < i + q.length
    · rw [if_pos hg]
    · rw [if_neg hg]
      have hh : headedBy q (s.drop i) = false := by
        have := rustFind_none_drop hq h 0
        simpa using this
      rw [if_neg (by simp [hh])]
      have hi : i < s.length := by omega
      have hd : s.drop i = s[i] :: s.drop (i + 1) := List.drop_eq_getElem_cons hi
      have ht : rustFind (s.drop (i + 1)) q = none := by
        rw [hd, rustFind] at h
        by_cases hb2 : headedBy q (s[i] :: s.drop (i + 1)) = true
        · rw [if_pos hb2] at h; simp at h
        · rw [if_neg hb2] at h
          cases h' : rustFind (s.drop (i + 1)) q with
          | none => rfl
          | some p => rw [h'] at h; simp at h
      exact ih (i + 1) ht

theorem occsFrom_of_some {q s : List Nat} (hq : q ≠ []) :
    ∀ p i k₁ k₂, rustFind (s.drop i) q = some p →
      s.length + 1 - i ≤ k₁ → s.length + 1 - (i + p + q.length) ≤ k₂ →
      occsFrom q s k₁ i = (i + p) :: occsFrom q s k₂ (i + p + q.length) := by
  have hqlen : 0 < q.length := List.length_pos.mpr hq
  intro p
  induction p with
  | zero =>
    intro i k₁ k₂ hf h₁ h₂
    have hb := rustFind_headed hf
    simp only [List.drop_zero] at hb
    have hbd := rustFind_bound hf
    rw [List.length_drop] at hbd
    have hi : i + q.length ≤ s.length := by omega
    obtain ⟨m, rfl⟩ : ∃ m, k₁ = m + 1 := ⟨k₁ - 1, by omega⟩
    simp only [occsFrom]
    rw [if_neg (by omega), if_pos hb]
    simp only [Nat.add_zero]
    rw [occsFrom_fuel hq m k₂ (i + q.length) (by omega) (by omega)]
  | succ p' ih =>
    intro i k₁ k₂ hf h₁ h₂
    have hbd := rustFind_bound hf
    rw [List.length_drop] at hbd
    have hi : i < s.length := by omega
    have hd : s.drop i = s[i] :: s.drop (i + 1) := List.drop_eq_getElem_cons hi
    rw [hd] at hf
    obtain ⟨hf', hh⟩ := rustFind_cons_succ hf
    obtain ⟨m, rfl⟩ : ∃ m, k₁ = m + 1 := ⟨k₁ - 1, by omega⟩
    have hh' : headedBy q (s.drop i) = false := by rw [hd]; exact hh
    simp only [occsFrom]
    rw [if_neg (by omega), if_neg (by simp [hh'])]
    have e1 : i + (p' + 1) = i + 1 + p' := by omega
    rw [e1]
    exact ih (i + 1) m k₂ hf' (by omega) (by omega)

/-! ### Facts about the match-collection loop -/

theorem searchLoop_succ_none {q tB s : List Nat} {n i : Nat}
    (hf : rustFind (s.drop i) q = none) :
    searchLoop q tB s (n + 1) i = some [] := by
  show searchBody q tB s (searchLoop q tB s n) i = some []
  rw [searchBody, hf]

theorem searchLoop_succ_some {q tB s : List Nat} {n i pos : Nat}
    (hf : rustFind (s.drop i) q = some pos) :
    searchLoop q tB s (n + 1) i =
      match strSlice tB (i + pos - 40) (min (i + pos + q.length + 40) tB.length) with
      | none => none
      | some ctx =>
        match searchLoop q tB s n (i + pos + q.length) with
        | none => none
        | some rest => some (⟨ctx, i + pos⟩ :: rest) := by
  show searchBody q tB s (searchLoop q tB s n) i = _
  rw [searchBody, hf]

theorem searchLoop_map_position {q tB s : List Nat} (hq : q ≠ []) :
    ∀ k i ms, s.length + 1 - i ≤ k → searchLoop q tB s k i = some ms →
      ms.map MatchResult.position = occsFrom q s k i := by
  have hqlen : 0 < q.length := List.length_pos.mpr hq
  intro k
  induction k with
  | zero => intro i ms _ h; simp [searchLoop] at h
  | succ n ih =>
    intro i ms hb h
    cases hf : rustFind (s.drop i) q with
    | none =>
      rw [searchLoop_succ_none hf] at h
      have : ms = [] := by simpa using h.symm
      subst this
      rw [occsFrom_of_none hq (n + 1) i hf]
      rfl
    | some pos =>
      rw [searchLoop_succ_some hf] at h
      have hbd := rustFind_bound hf
      rw [List.length_drop] at hbd
      have hi : i < s.length := by omega
      cases hsl : strSlice tB (i + pos - 40) (min (i + pos + q.length + 40) tB.length) with
      | none => rw [hsl] at h; simp at h
      | some ctx =>
        rw [hsl] at h
        cases hrec : searchLoop q tB s n (i + pos + q.length) with
        | none => rw [hrec] at h; simp at h
        | some rest =>
          rw [hrec] at h
          have : ms = ⟨ctx, i + pos⟩ :: rest := by simpa using h.symm
          subst this
          have hrest := ih (i + pos + q.length) rest (by omega) hrec
          rw [occsFrom_of_some hq pos i (n + 1) n hf (by omega) (by omega)]
          simp only [List.map_cons]
          rw [hrest]

theorem ascii_isCharBoundary {tB : List Nat} (hascii : ∀ b ∈ tB, b < 0x80)
    {j : Nat} (hj : j ≤ tB.length) : isCharBoundary tB j = true := by
  rw [isCharBoundary]
  rcases Nat.lt_or_ge j tB.length with hlt | hge
  · have hsome : tB[j]? = some tB[j] := List.getElem?_eq_getElem hlt
    rw [hsome]
    have := hascii tB[j] (List.getElem_mem hlt)
    simp only [Bool.or_eq_true, decide_eq_true_eq]
    right; left; omega
  · have hje : j = tB.length := by omega
    have hnone : tB[j]? = none := by
      rw [List.getElem?_eq_none_iff]
      omega
    rw [hnone]
    simp [hje]

theorem searchLoop_total {q tB s : List Nat} (hq : q ≠ [])
    (hascii : ∀ b ∈ tB, b < 0x80) (hlen : s.length = tB.length) :
    ∀ k i, s.length + 1 - i ≤ k → 0 < k →
      ∃ ms, searchLoop q tB s k i = some ms := by
  have hqlen : 0 < q.length := List.length_pos.mpr hq
  intro k
  induction k with
  | zero => intro i _ hk; omega
  | succ n ih =>
    intro i hb _
    cases hf : rustFind (s.drop i) q with
    | none => exact ⟨[], searchLoop_succ_none hf⟩
    | some pos =>
      have hbd := rustFind_bound hf
      rw [List.length_drop] at hbd
      have hi : i < s.length := by omega
      have hend : min (i + pos + q.length + 40) tB.length ≤ tB.length :=
        Nat.min_le_right _ _
      have hcs : isCharBoundary tB (i + pos - 40) = true :=
        ascii_isCharBoundary hascii (by omega)
      have hce : isCharBoundary tB (min (i + pos + q.length + 40) tB.length) = true :=
        ascii_isCharBoundary hascii hend
      have hsl : strSlice tB (i + pos - 40) (min (i + pos + q.length + 40) tB.length) =
          some (sliceBytes tB (i + pos - 40) (min (i + pos + q.length + 40) tB.length)) := by
        rw [strSlice, if_pos]
        refine ⟨?_, hcs, hce⟩
        have h1 : i + pos + q.length ≤ tB.length := by omega
        have h2 : i + pos ≤ min (i + pos + q.length + 40) tB.length := by
          rw [Nat.le_min]
          omega
        omega
      obtain ⟨ms', hms'⟩ := ih (i + pos + q.length) (by omega) (by omega)
      refine ⟨⟨sliceBytes tB (i + pos - 40) (min (i + pos + q.length + 40) tB.length),
        i + pos⟩ :: ms', ?_⟩
      rw [searchLoop_succ_some hf, hsl, hms']

/-! ### ASCII texts: byte offsets coincide across case folding -/

theorem char_toNat_ofNat_small {n : Nat} (h : n < 0xD800) :
    (Char.ofNat n).toNat = n := by
  have hv : n.isValidChar := Or.inl h
  rw [Char.ofNat, dif_pos hv]
  rfl

theorem encodeChar_ascii {c : Char} (h : c.toNat < 128) :
    encodeChar c = [c.toNat] := by
  simp only [encodeChar]
  rw [if_pos h]

theorem encodeStr_cons (c : Char) (t : List Char) :
    encodeStr (c :: t) = encodeChar c ++ encodeStr t := rfl

theorem toLowerStr_cons (c : Char) (t : List Char) :
    toLowerStr (c :: t) = rustToLowerChar c ++ toLowerStr t := rfl

theorem encodeStr_ascii {s : List Char} (h : ∀ c ∈ s, c.toNat < 128) :
    encodeStr s = s.map Char.toNat := by
  induction s with
  | nil => rfl
  | cons c t ih =>
    rw [encodeStr_cons, encodeChar_ascii (h c (by simp)), List.map_cons,
      ih (fun x hx => h x (by simp [hx]))]
    rfl

theorem encodeStr_ascii_mem {s : List Char} (h : ∀ c ∈ s, c.toNat < 128) :
    ∀ b ∈ encodeStr s, b < 0x80 := by
  rw [encodeStr_ascii h]
  intro b hb
  obtain ⟨c, hc, rfl⟩ := List.mem_map.mp hb
  exact h c hc

/-- ASCII-only byte-level lowercasing: the effect of the case folding on
the byte image of an ASCII string. -/
def lowerByte (b : Nat) : Nat :=
  if 65 ≤ b ∧ b ≤ 90 then b + 32 else b

theorem encodeStr_toLower_ascii {s : List Char} (h : ∀ c ∈ s, c.toNat < 128) :
    encodeStr (toLowerStr s) = (encodeStr s).map lowerByte := by
  induction s with
  | nil => rfl
  | cons c t ih =>
    have hc : c.toNat < 128 := h c (by simp)
    have ht := ih (fun x hx => h x (by simp [hx]))
    rw [toLowerStr_cons, encodeStr_cons]
    have happ : encodeStr (rustToLowerChar c ++ toLowerStr t) =
        encodeStr (rustToLowerChar c) ++ encodeStr (toLowerStr t) := by
      rw [encodeStr, encodeStr, encodeStr, List.map_append, List.flatten_append]
    rw [happ, List.map_append, ht, encodeChar_ascii hc]
    congr 1
    by_cases hup : 65 ≤ c.toNat ∧ c.toNat ≤ 90
    · rw [rustToLowerChar, if_pos hup]
      have h32 : (Char.ofNat (c.toNat + 32)).toNat = c.toNat + 32 :=
        char_toNat_ofNat_small (by omega)
      rw [encodeStr_cons]
      rw [encodeChar_ascii (by omega : (Char.ofNat (c.toNat + 32)).toNat < 128)]
      simp [encodeStr, h32, lowerByte, hup]
    · rw [rustToLowerChar, if_neg hup, if_neg (by omega)]
      rw [encodeStr_cons]
      rw [encodeChar_ascii hc]
      simp only [List.map_cons, List.map_nil]
      have : lowerByte c.toNat = c.toNat := by rw [lowerByte, if_neg hup]
      simp [encodeStr, this]

theorem encodeChar_ne_nil (c : Char) : encodeChar c ≠ [] := by
  simp only [encodeChar]
  split
  · simp
  · split
    · simp
    · split <;> simp

theorem encodeStr_ne_nil {s : List Char} (h : s ≠ []) : encodeStr s ≠ [] := by
  cases s with
  | nil => exact absurd rfl h
  | cons c t =>
    rw [encodeStr_cons]
    simp [encodeChar_ne_nil c]

theorem rustToLowerChar_ne_nil (c : Char) : rustToLowerChar c ≠ [] := by
  rw [rustToLowerChar]
  split
  · simp
  · split <;> simp

theorem toLowerStr_ne_nil {s : List Char} (h : s ≠ []) : toLowerStr s ≠ [] := by
  cases s with
  | nil => exact absurd rfl h
  | cons c t =>
    rw [toLowerStr_cons]
    simp [rustToLowerChar_ne_nil c]

theorem foldCase_ne_nil {cs : Bool} {s : List Char} (h : s ≠ []) :
    foldCase cs s ≠ [] := by
  rw [foldCase]
  cases cs with
  | true => simpa using h
  | false => simpa using toLowerStr_ne_nil h

theorem sliceBytes_map (f : Nat → Nat) (l : List Nat) (i j : Nat) :
    sliceBytes (l.map f) i j = (sliceBytes l i j).map f := by
  simp [sliceBytes, List.map_take, List.map_drop]

theorem sliceBytes_of_headedBy {q s : List Nat} {p : Nat}
    (h : headedBy q (s.drop p) = true) :
    sliceBytes s p (p + q.length) = q := by
  rw [sliceBytes, Nat.add_sub_cancel_left]
  exact headedBy_take h

/-- The comparison "equals the phrase under the configured case rule" on
byte strings (over ASCII data, where `lowerByte` is the case folding). -/
def caseEqBytes (cs : Bool) (a b : List Nat) : Prop :=
  if cs then a = b else a.map lowerByte = b.map lowerByte

/-- C1 (amended to ASCII query and text): for a non-empty ASCII query
and an ASCII text, `search_in_text` returns (without panicking) exactly
the left-to-right non-overlapping occurrence list of the case-folded
query in the case-folded text — one span per occurrence, each later
span at least a full query length after the previous one — and the byte
substring of the original text of the query's byte length starting at
each reported offset equals the query under the configured case rule. -/
theorem search_in_text_ascii (cs : Bool) (query text : List Char)
    (hq : query ≠ []) (hqa : ∀ c ∈ query, c.toNat < 128)
    (hta : ∀ c ∈ text, c.toNat < 128) :
    ∃ ms, search_in_text cs query text = some ms ∧
      ms.map MatchResult.position =
        occurrences (encodeStr (foldCase cs query)) (encodeStr (foldCase cs text)) ∧
      (ms.map MatchResult.position).Pairwise
        (fun a b => a + (encodeStr query).length ≤ b) ∧
      ∀ m ∈ ms,
        m.position + (encodeStr query).length ≤ (encodeStr text).length ∧
        caseEqBytes cs
          (sliceBytes (encodeStr text) m.position
            (m.position + (encodeStr query).length))
          (encodeStr query) := by
  have hqB : encodeStr (foldCase cs query) ≠ [] :=
    encodeStr_ne_nil (foldCase_ne_nil hq)
  have htB : ∀ b ∈ encodeStr text, b < 0x80 := encodeStr_ascii_mem hta
  have hsB : encodeStr (foldCase cs text) =
      if cs then encodeStr text else (encodeStr text).map lowerByte := by
    cases cs with
    | true => rw [foldCase]; simp
    | false => rw [foldCase]; simpa using encodeStr_toLower_ascii hta
  have hqB' : encodeStr (foldCase cs query) =
      if cs then encodeStr query else (encodeStr query).map lowerByte := by
    cases cs with
    | true => rw [foldCase]; simp
    | false => rw [foldCase]; simpa using encodeStr_toLower_ascii hqa
  have hslen : (encodeStr (foldCase cs text)).length = (encodeStr text).length := by
    rw [hsB]; cases cs <;> simp
  have hqlen : (encodeStr (foldCase cs query)).length = (encodeStr query).length := by
    rw [hqB']; cases cs <;> simp
  obtain ⟨ms, hms⟩ := searchLoop_total hqB htB hslen
    ((encodeStr (foldCase cs text)).length + 1) 0 (by omega) (by omega)
  refine ⟨ms, ?_, ?_, ?_, ?_⟩
  · show searchLoop _ _ _ _ _ = some ms
    exact hms
  · exact searchLoop_map_position hqB _ 0 ms (by omega) hms
  · have hpw := occsFrom_pairwise (q := encodeStr (foldCase cs query))
      (s := encodeStr (foldCase cs text))
      ((encodeStr (foldCase cs text)).length + 1) 0
    have hmap := searchLoop_map_position hqB _ 0 ms (by omega) hms
    rw [← hmap] at hpw
    simpa only [hqlen] using hpw
  · intro m hm
    have hmap := searchLoop_map_position hqB _ 0 ms (by omega) hms
    have hmem : m.position ∈ occsFrom (encodeStr (foldCase cs query))
        (encodeStr (foldCase cs text)) ((encodeStr (foldCase cs text)).length + 1) 0 := by
      rw [← hmap]
      exact List.mem_map.mpr ⟨m, hm, rfl⟩
    obtain ⟨hhead, hbound⟩ := occsFrom_matchAt _ _ _ hmem
    constructor
    · omega
    · have hslice := sliceBytes_of_headedBy hhead
      rw [hqlen] at hslice
      cases cs with
      | true =>
        rw [caseEqBytes]
        simp only [if_true]
        rw [hsB] at hslice
        simp only [if_true] at hslice
        rw [hqB'] at hslice
        simpa using hslice
      | false =>
        rw [caseEqBytes]
        simp only [Bool.false_eq_true, if_false]
        rw [hsB] at hslice
        simp only [Bool.false_eq_true, if_false] at hslice
        rw [hqB'] at hslice
        simp only [Bool.false_eq_true, if_false] at hslice
        rw [sliceBytes_map] at hslice
        exact hslice

/-- Witness for C1's theorem: the case-insensitive search for `An` in
`banana` at concrete input. -/
theorem search_in_text_ascii_witness :
    (['A', 'n'] : List Char) ≠ [] ∧
    (∀ c ∈ (['A', 'n'] : List Char), c.toNat < 128) ∧
    (∀ c ∈ "banana".toList, c.toNat < 128) ∧
    (∃ ms, search_in_text false ['A', 'n'] "banana".toList = some ms ∧
      ms.map MatchResult.position =
        occurrences (encodeStr (foldCase false ['A', 'n']))
          (encodeStr (foldCase false "banana".toList)) ∧
      (ms.map MatchResult.position).Pairwise
        (fun a b => a + (encodeStr ['A', 'n']).length ≤ b) ∧
      ∀ m ∈ ms,
        m.position + (encodeStr ['A', 'n']).length ≤
          (encodeStr "banana".toList).length ∧
        caseEqBytes false
          (sliceBytes (encodeStr "banana".toList) m.position
            (m.position + (encodeStr ['A', 'n']).length))
          (encodeStr ['A', 'n'])) :=
  ⟨by decide, by decide, by decide,
    search_in_text_ascii false ['A', 'n'] "banana".toList (by decide) (by decide)
      (by decide)⟩

/-- C1 counterexample: searching case-insensitively for `a` in the text
`İa`, the single reported span has `startOffset` 3, but the original
(unfolded) text is only 3 bytes long, so the substring of the original
text of the phrase's length starting at that offset is empty and does
not equal the phrase — under either case rule.  (The offset 3 is an
index into the LOWERCASED text `i̇a`, which is one byte longer than the
original.) -/
theorem search_in_text_offset_mismatch :
    (search_in_text false ['a'] ['İ', 'a']).map
        (fun l => l.map MatchResult.position) = some [3] ∧
    (encodeStr ['İ', 'a']).length = 3 ∧
    sliceBytes (encodeStr ['İ', 'a']) 3 (3 + (encodeStr ['a']).length) ≠
      encodeStr ['a'] ∧
    (sliceBytes (encodeStr ['İ', 'a']) 3 (3 + (encodeStr ['a']).length)).map
        lowerByte ≠ (encodeStr ['a']).map lowerByte := by
  decide

/-- C2: the context-window arithmetic is in BYTES, and the slice of the
original text panics when the window start `position - 40` lands inside a
multi-byte character.  At `splitText` (39 `x`, then `あ`, then 38 `x`,
then `q`) the only match of the case-sensitive query `q` is at byte
offset 80; the window start `80 - 40 = 40` is a continuation byte of
`あ`, not a character boundary, and `search_in_text` panics (`none`)
instead of returning the single match with a clamped window. -/
theorem search_in_text_window_splits_char :
    search_in_text true ['q'] splitText = none ∧
    rustFind (encodeStr (foldCase true splitText))
      (encodeStr (foldCase true ['q'])) = some 80 ∧
    isCharBoundary (encodeStr splitText) (80 - 40) = false := by
  decide

/-! ### The shared aggregate: merge order, union, duplication -/

theorem flatten_perm_of_perm {α : Type} {l₁ l₂ : List (List α)}
    (h : l₁.Perm l₂) : l₁.flatten.Perm l₂.flatten := by
  induction h with
  | nil => rfl
  | cons x _ ih =>
    simp only [List.flatten_cons]
    exact ih.append_left x
  | swap x y l =>
    simp only [List.flatten_cons]
    rw [← List.append_assoc, ← List.append_assoc]
    exact List.perm_append_comm.append_right _
  | trans _ _ ih₁ ih₂ => exact ih₁.trans ih₂

theorem candPaths_cons (e : Entry) (t : List Entry) :
    Cli.candPaths (e :: t) =
      if Cli.candidate e then e.path :: Cli.candPaths t else Cli.candPaths t := by
  rw [Cli.candPaths, Cli.candPaths, List.filter_cons]
  by_cases h : Cli.candidate e
  · rw [if_pos h, if_pos h]
    rfl
  · rw [if_neg h, if_neg h]

theorem search_pdf_files_sublist (es : List Entry) (ph : List Char) :
    (Cli.search_pdf_files es ph).Sublist (Cli.candPaths es) := by
  induction es with
  | nil => simp [Cli.search_pdf_files, Cli.candPaths]
  | cons e t ih =>
    rw [candPaths_cons]
    cases hf : e.is_file with
    | false =>
      have hcand : Cli.candidate e = false := by simp [Cli.candidate, hf]
      rw [if_neg (by simp [hcand])]
      simpa [Cli.search_pdf_files, hf] using ih
    | true =>
      cases hext : e.extension with
      | none =>
        have hcand : Cli.candidate e = false := by simp [Cli.candidate, hf, hext]
        rw [if_neg (by simp [hcand])]
        simpa [Cli.search_pdf_files, hf, hext] using ih
      | some ext =>
        by_cases hpdf : ext = pdfExt
        · have hcand : Cli.candidate e = true := by
            simp [Cli.candidate, hf, hext, hpdf]
          rw [if_pos (by simp [hcand])]
          by_cases hph : ph = []
          · simpa [Cli.search_pdf_files, hf, hext, hpdf, hph] using ih.cons₂ e.path
          · cases hc : Cli.search_phrase_in_pdf e.content ph with
            | ok b =>
              cases b with
              | true =>
                simpa [Cli.search_pdf_files, hf, hext, hpdf, hph, hc] using
                  ih.cons₂ e.path
              | false =>
                simpa [Cli.search_pdf_files, hf, hext, hpdf, hph, hc] using
                  ih.cons e.path
            | error err =>
              simpa [Cli.search_pdf_files, hf, hext, hpdf, hph, hc] using
                ih.cons e.path
        · have hcand : Cli.candidate e = false := by
            simp [Cli.candidate, hf, hext, hpdf]
          rw [if_neg (by simp [hcand])]
          simpa [Cli.search_pdf_files, hf, hext, hpdf] using ih

theorem aggregate_nodup_aux (phrase : List Char)
    (rootEntries order : List (List Entry)) (hperm : order.Perm rootEntries)
    (hnd : ∀ es ∈ rootEntries, (Cli.candPaths es).Nodup)
    (hdisj : rootEntries.Pairwise
      (fun a b => ∀ p ∈ Cli.candPaths a, p ∉ Cli.candPaths b)) :
    (Cli.aggregate phrase order).Nodup := by
  have hnd' : ((rootEntries.map
      (fun es => Cli.search_pdf_files es phrase)).flatten).Nodup := by
    rw [List.nodup_flatten]
    constructor
    · intro l hl
      obtain ⟨es, hes, rfl⟩ := List.mem_map.mp hl
      exact (search_pdf_files_sublist es phrase).nodup (hnd es hes)
    · refine List.Pairwise.map _ ?_ hdisj
      intro a b hab
      intro p hpa hpb
      exact hab p ((search_pdf_files_sublist a phrase).subset hpa)
        ((search_pdf_files_sublist b phrase).subset hpb)
  have hperm' : (Cli.aggregate phrase order).Perm
      ((rootEntries.map (fun es => Cli.search_pdf_files es phrase)).flatten) :=
    flatten_perm_of_perm (hperm.map _)
  exact hperm'.nodup_iff.mpr hnd'

/-- C3: for roots whose candidate-file sets are pairwise disjoint (and
whose walks list distinct files, as a filesystem walk does), the final
aggregate — the per-root worker lists appended in an arbitrary handoff
order — is, up to the unspecified order, the same collection for every
handoff order, contains exactly the union of the per-root results, and
has no duplicates: no file missing, none duplicated. -/
theorem aggregate_union (phrase : List Char)
    (rootEntries order : List (List Entry)) (hperm : order.Perm rootEntries)
    (hnd : ∀ es ∈ rootEntries, (Cli.candPaths es).Nodup)
    (hdisj : rootEntries.Pairwise
      (fun a b => ∀ p ∈ Cli.candPaths a, p ∉ Cli.candPaths b)) :
    (Cli.aggregate phrase order).Perm (Cli.aggregate phrase rootEntries) ∧
    (∀ p, p ∈ Cli.aggregate phrase order ↔
      ∃ es ∈ rootEntries, p ∈ Cli.search_pdf_files es phrase) ∧
    (Cli.aggregate phrase order).Nodup := by
  have hp : (Cli.aggregate phrase order).Perm (Cli.aggregate phrase rootEntries) :=
    flatten_perm_of_perm (hperm.map _)
  refine ⟨hp, ?_, aggregate_nodup_aux phrase rootEntries order hperm hnd hdisj⟩
  intro p
  rw [hp.mem_iff]
  rw [Cli.aggregate]
  simp only [List.mem_flatten, List.mem_map]
  constructor
  · rintro ⟨l, ⟨es, hes, rfl⟩, hpl⟩
    exact ⟨es, hes, hpl⟩
  · rintro ⟨es, hes, hpes⟩
    exact ⟨Cli.search_pdf_files es phrase, ⟨es, hes, rfl⟩, hpes⟩

/-- Witness for C3's theorem: two disjoint one-file roots handed off in
reversed order. -/
theorem aggregate_union_witness :
    ([[⟨['b'], true, some pdfExt, some [0x68]⟩],
      [⟨['a'], true, some pdfExt, some [0x68]⟩]] : List (List Entry)).Perm
        [[⟨['a'], true, some pdfExt, some [0x68]⟩],
         [⟨['b'], true, some pdfExt, some [0x68]⟩]] ∧
    (∀ es ∈ ([[⟨['a'], true, some pdfExt, some [0x68]⟩],
        [⟨['b'], true, some pdfExt, some [0x68]⟩]] : List (List Entry)),
      (Cli.candPaths es).Nodup) ∧
    ([[⟨['a'], true, some pdfExt, some [0x68]⟩],
      [⟨['b'], true, some pdfExt, some [0x68]⟩]] : List (List Entry)).Pairwise
      (fun a b => ∀ p ∈ Cli.candPaths a, p ∉ Cli.candPaths b) ∧
    ((Cli.aggregate ['h']
        [[⟨['b'], true, some pdfExt, some [0x68]⟩],
         [⟨['a'], true, some pdfExt, some [0x68]⟩]]).Perm
      (Cli.aggregate ['h']
        [[⟨['a'], true, some pdfExt, some [0x68]⟩],
         [⟨['b'], true, some pdfExt, some [0x68]⟩]]) ∧
    (∀ p, p ∈ Cli.aggregate ['h']
        [[⟨['b'], true, some pdfExt, some [0x68]⟩],
         [⟨['a'], true, some pdfExt, some [0x68]⟩]] ↔
      ∃ es ∈ ([[⟨['a'], true, some pdfExt, some [0x68]⟩],
          [⟨['b'], true, some pdfExt, some [0x68]⟩]] : List (List Entry)),
        p ∈ Cli.search_pdf_files es ['h']) ∧
    (Cli.aggregate ['h']
        [[⟨['b'], true, some pdfExt, some [0x68]⟩],
         [⟨['a'], true, some pdfExt, some [0x68]⟩]]).Nodup) :=
  ⟨by decide, by decide, by decide,
    aggregate_union ['h'] _ _ (by decide) (by decide) (by decide)⟩

/-- C4 counterexample: two overlapping roots that both walk the same
candidate file.  Each worker pushes the path, `results.extend` appends
both local lists verbatim (there is no deduplication anywhere), and the
merged aggregate contains the path twice. -/
theorem aggregate_duplicate_path :
    Cli.aggregate []
        [[⟨['a'], true, some pdfExt, some []⟩],
         [⟨['a'], true, some pdfExt, some []⟩]] = [['a'], ['a']] ∧
    ¬ (Cli.aggregate []
        [[⟨['a'], true, some pdfExt, some []⟩],
         [⟨['a'], true, some pdfExt, some []⟩]]).Nodup := by
  decide

/-- C4 (amended): the merged aggregate has one entry per (root, matching
file) pair; it contains at most one entry per distinct path only when
the roots' candidate-file sets are pairwise disjoint (each root's walk
listing distinct files) — a path present in several overlapping root
trees appears once per root.  Under that disjointness, for every handoff
order, no path appears twice. -/
theorem aggregate_nodup_of_disjoint (phrase : List Char)
    (rootEntries order : List (List Entry)) (hperm : order.Perm rootEntries)
    (hnd : ∀ es ∈ rootEntries, (Cli.candPaths es).Nodup)
    (hdisj : rootEntries.Pairwise
      (fun a b => ∀ p ∈ Cli.candPaths a, p ∉ Cli.candPaths b)) :
    (Cli.aggregate phrase order).Nodup :=
  aggregate_nodup_aux phrase rootEntries order hperm hnd hdisj

/-- Witness for C4's amended theorem: two disjoint one-file roots. -/
theorem aggregate_nodup_of_disjoint_witness :
    ([[⟨['c'], true, some pdfExt, some []⟩],
      [⟨['d'], true, some pdfExt, some []⟩]] : List (List Entry)).Perm
        [[⟨['c'], true, some pdfExt, some []⟩],
         [⟨['d'], true, some pdfExt, some []⟩]] ∧
    (∀ es ∈ ([[⟨['c'], true, some pdfExt, some []⟩],
        [⟨['d'], true, some pdfExt, some []⟩]] : List (List Entry)),
      (Cli.candPaths es).Nodup) ∧
    ([[⟨['c'], true, some pdfExt, some []⟩],
      [⟨['d'], true, some pdfExt, some []⟩]] : List (List Entry)).Pairwise
      (fun a b => ∀ p ∈ Cli.candPaths a, p ∉ Cli.candPaths b) ∧
    (Cli.aggregate []
      [[⟨['c'], true, some pdfExt, some []⟩],
       [⟨['d'], true, some pdfExt, some []⟩]]).Nodup :=
  ⟨by decide, by decide, by decide,
    aggregate_nodup_of_disjoint []
      [[⟨['c'], true, some pdfExt, some []⟩],
       [⟨['d'], true, some pdfExt, some []⟩]]
      [[⟨['c'], true, some pdfExt, some []⟩],
       [⟨['d'], true, some pdfExt, some []⟩]]
      (by decide) (by decide) (by decide)⟩

/-! ### Empty phrase: the match-all shortcut -/

/-- C5: with an empty phrase, a worker's result list is exactly the
candidate files its walk discovered (every regular file with extension
`pdf`), independent of any file's content — the `continue` before the
per-file check means `search_phrase_in_pdf` is never consulted; the
aggregate is then exactly the candidates of all roots.  (Each reported
path is a match-all report — the spec's FileMatch with one placeholder
span.) -/
theorem empty_phrase_matches_all :
    (∀ es : List Entry, Cli.search_pdf_files es [] = Cli.candPaths es) ∧
    (∀ order : List (List Entry),
      Cli.aggregate [] order = (order.map Cli.candPaths).flatten) := by
  have h1 : ∀ es : List Entry, Cli.search_pdf_files es [] = Cli.candPaths es := by
    intro es
    induction es with
    | nil => rfl
    | cons e t ih =>
      rw [candPaths_cons]
      cases hf : e.is_file with
      | false =>
        have hcand : Cli.candidate e = false := by simp [Cli.candidate, hf]
        rw [if_neg (by simp [hcand])]
        simpa [Cli.search_pdf_files, hf] using ih
      | true =>
        cases hext : e.extension with
        | none =>
          have hcand : Cli.candidate e = false := by simp [Cli.candidate, hf, hext]
          rw [if_neg (by simp [hcand])]
          simpa [Cli.search_pdf_files, hf, hext] using ih
        | some ext =>
          by_cases hpdf : ext = pdfExt
          · have hcand : Cli.candidate e = true := by
              simp [Cli.candidate, hf, hext, hpdf]
            rw [if_pos (by simp [hcand])]
            simp only [Cli.search_pdf_files, hf, hext, hpdf]
            simp [ih]
          · have hcand : Cli.candidate e = false := by
              simp [Cli.candidate, hf, hext, hpdf]
            rw [if_neg (by simp [hcand])]
            simpa [Cli.search_pdf_files, hf, hext, hpdf] using ih
  refine ⟨h1, fun order => ?_⟩
  rw [Cli.aggregate]
  simp only [h1]

/-! ### Per-file failure isolation -/

theorem search_pdf_files_append (xs ys : List Entry) (ph : List Char) :
    Cli.search_pdf_files (xs ++ ys) ph =
      Cli.search_pdf_files xs ph ++ Cli.search_pdf_files ys ph := by
  induction xs with
  | nil => rfl
  | cons e t ih =>
    simp only [List.cons_append, Cli.search_pdf_files, ih]
    repeat' split
    all_goals simp [ih]

theorem search_files_in_directory_append
    (extract : List Nat → Option (List Char)) (xs ys : List Entry)
    (ph : List Char) :
    Gui.search_files_in_directory extract (xs ++ ys) ph =
      Gui.search_files_in_directory extract xs ph ++
        Gui.search_files_in_directory extract ys ph := by
  induction xs with
  | nil => rfl
  | cons e t ih =>
    simp only [List.cons_append, Gui.search_files_in_directory, ih]
    repeat' split
    all_goals simp [ih]

theorem search_pdf_files_skip_error {bad : Entry} {ph : List Char}
    {err : Cli.PdfError} (hph : ph ≠ [])
    (hbad : Cli.search_phrase_in_pdf bad.content ph = .error err)
    (post : List Entry) :
    Cli.search_pdf_files (bad :: post) ph = Cli.search_pdf_files post ph := by
  cases hf : bad.is_file with
  | false => simp [Cli.search_pdf_files, hf]
  | true =>
    cases hext : bad.extension with
    | none => simp [Cli.search_pdf_files, hf, hext]
    | some ext =>
      by_cases hpdf : ext = pdfExt
      · simp [Cli.search_pdf_files, hf, hext, hpdf, hph, hbad]
      · simp [Cli.search_pdf_files, hf, hext, hpdf]

theorem search_files_in_directory_skip_error
    {extract : List Nat → Option (List Char)} {bad : Entry} {ph : List Char}
    {err : Gui.PdfError}
    (hbad : Gui.search_phrase_in_pdf extract bad.content ph = .error err)
    (post : List Entry) :
    Gui.search_files_in_directory extract (bad :: post) ph =
      Gui.search_files_in_directory extract post ph := by
  cases hf : bad.is_file with
  | false => simp [Gui.search_files_in_directory, hf]
  | true =>
    cases hext : bad.extension with
    | none => simp [Gui.search_files_in_directory, hf, hext]
    | some ext =>
      by_cases hpdf : ext = pdfExt
      · simp [Gui.search_files_in_directory, hf, hext, hpdf, hbad]
      · simp [Gui.search_files_in_directory, hf, hext, hpdf]

/-- C7: a file whose per-file check fails (unreadable, or — CLI — not
UTF-8, or — GUI — failing extraction) is excluded from the results and
the worker continues: the result over `pre ++ [bad] ++ post` is exactly
the result over `pre` followed by the result over `post`, in both the
CLI worker and the GUI directory search. -/
theorem extraction_failure_isolated (phrase : List Char)
    (pre post : List Entry) (bad : Entry)
    (extract : List Nat → Option (List Char))
    (e₁ : Cli.PdfError) (e₂ : Gui.PdfError) (hph : phrase ≠ [])
    (hbad₁ : Cli.search_phrase_in_pdf bad.content phrase = .error e₁)
    (hbad₂ : Gui.search_phrase_in_pdf extract bad.content phrase = .error e₂) :
    Cli.search_pdf_files (pre ++ bad :: post) phrase =
      Cli.search_pdf_files pre phrase ++ Cli.search_pdf_files post phrase ∧
    Gui.search_files_in_directory extract (pre ++ bad :: post) phrase =
      Gui.search_files_in_directory extract pre phrase ++
        Gui.search_files_in_directory extract post phrase := by
  constructor
  · rw [search_pdf_files_append, search_pdf_files_skip_error hph hbad₁]
  · rw [search_files_in_directory_append,
      search_files_in_directory_skip_error hbad₂]

/-- Witness for C7's theorem: an unreadable file surrounded by two
readable matching files. -/
theorem extraction_failure_isolated_witness :
    (['h'] : List Char) ≠ [] ∧
    Cli.search_phrase_in_pdf (Entry.content ⟨['b'], true, some pdfExt, none⟩)
      ['h'] = .error Cli.PdfError.readErr ∧
    Gui.search_phrase_in_pdf (fun _ => some [])
      (Entry.content ⟨['b'], true, some pdfExt, none⟩) ['h'] =
        .error Gui.PdfError.readErr ∧
    (Cli.search_pdf_files
        ([⟨['a'], true, some pdfExt, some [0x68]⟩] ++
          ⟨['b'], true, some pdfExt, none⟩ ::
            [⟨['c'], true, some pdfExt, some [0x68]⟩]) ['h'] =
      Cli.search_pdf_files [⟨['a'], true, some pdfExt, some [0x68]⟩] ['h'] ++
        Cli.search_pdf_files [⟨['c'], true, some pdfExt, some [0x68]⟩] ['h'] ∧
    Gui.search_files_in_directory (fun _ => some [])
        ([⟨['a'], true, some pdfExt, some [0x68]⟩] ++
          ⟨['b'], true, some pdfExt, none⟩ ::
            [⟨['c'], true, some pdfExt, some [0x68]⟩]) ['h'] =
      Gui.search_files_in_directory (fun _ => some [])
          [⟨['a'], true, some pdfExt, some [0x68]⟩] ['h'] ++
        Gui.search_files_in_directory (fun _ => some [])
          [⟨['c'], true, some pdfExt, some [0x68]⟩] ['h']) :=
  ⟨by decide, rfl, rfl,
    extraction_failure_isolated ['h']
      [⟨['a'], true, some pdfExt, some [0x68]⟩]
      [⟨['c'], true, some pdfExt, some [0x68]⟩]
      ⟨['b'], true, some pdfExt, none⟩ (fun _ => some [])
      Cli.PdfError.readErr Gui.PdfError.readErr
      (by decide) rfl rfl⟩

/-! ### The CLI per-file check as a UTF-8 gate -/

theorem search_pdf_files_mem {ph : List Char} (hph : ph ≠ []) :
    ∀ (es : List Entry) (p : List Char), p ∈ Cli.search_pdf_files es ph →
      ∃ e ∈ es, e.path = p ∧ e.is_file = true ∧ e.extension = some pdfExt ∧
        Cli.search_phrase_in_pdf e.content ph = .ok true := by
  intro es
  induction es with
  | nil => intro p hp; simp [Cli.search_pdf_files] at hp
  | cons e t ih =>
    intro p hp
    have lift : (∃ e' ∈ t, e'.path = p ∧ e'.is_file = true ∧
        e'.extension = some pdfExt ∧
        Cli.search_phrase_in_pdf e'.content ph = .ok true) →
        ∃ e' ∈ e :: t, e'.path = p ∧ e'.is_file = true ∧
          e'.extension = some pdfExt ∧
          Cli.search_phrase_in_pdf e'.content ph = .ok true := by
      rintro ⟨e', he', hrest⟩
      exact ⟨e', List.mem_cons_of_mem e he', hrest⟩
    cases hf : e.is_file with
    | false =>
      simp only [Cli.search_pdf_files, hf] at hp
      exact lift (ih p (by simpa using hp))
    | true =>
      cases hext : e.extension with
      | none =>
        simp only [Cli.search_pdf_files, hf, hext] at hp
        exact lift (ih p (by simpa using hp))
      | some ext =>
        by_cases hpdf : ext = pdfExt
        · simp only [Cli.search_pdf_files, hf, hext, hpdf, if_pos rfl] at hp
          rw [if_neg hph] at hp
          cases hc : Cli.search_phrase_in_pdf e.content ph with
          | ok b =>
            cases b with
            | true =>
              rw [hc] at hp
              simp only [] at hp
              rcases List.mem_cons.mp hp with rfl | hp'
              · exact ⟨e, List.mem_cons_self e t, rfl, hf, by rw [hext, hpdf], hc⟩
              · exact lift (ih p hp')
            | false =>
              rw [hc] at hp
              exact lift (ih p hp)
          | error err =>
            rw [hc] at hp
            exact lift (ih p hp)
        · simp only [Cli.search_pdf_files, hf, hext, hpdf] at hp
          exact lift (ih p (by simpa [hpdf] using hp))

/-- C9: the CLI per-file check errors exactly when the file cannot be
read or its bytes are not valid UTF-8, and otherwise reports whether the
bytes, read as a string, contain the phrase; consequently every path the
worker reports comes from a candidate entry whose check returned
`Ok(true)` — a file whose raw bytes are not valid UTF-8 is never
included in the result set. -/
theorem utf8_gate (phrase : List Char) (hph : phrase ≠ []) :
    Cli.search_phrase_in_pdf none phrase = .error Cli.PdfError.readErr ∧
    (∀ b : List Nat, decodeUtf8 b = none →
      Cli.search_phrase_in_pdf (some b) phrase = .error Cli.PdfError.utf8Err) ∧
    (∀ (b : List Nat) (s : List Char), decodeUtf8 b = some s →
      Cli.search_phrase_in_pdf (some b) phrase =
        .ok (rustContains b (encodeStr phrase))) ∧
    (∀ (es : List Entry) (p : List Char), p ∈ Cli.search_pdf_files es phrase →
      ∃ e ∈ es, e.path = p ∧ e.is_file = true ∧ e.extension = some pdfExt ∧
        Cli.search_phrase_in_pdf e.content phrase = .ok true) := by
  refine ⟨rfl, ?_, ?_, search_pdf_files_mem hph⟩
  · intro b hb
    simp [Cli.search_phrase_in_pdf, hb]
  · intro b s hb
    simp [Cli.search_phrase_in_pdf, hb]

/-- Witness for C9's theorem at the phrase `h`. -/
theorem utf8_gate_witness :
    (['h'] : List Char) ≠ [] ∧
    (Cli.search_phrase_in_pdf none ['h'] = .error Cli.PdfError.readErr ∧
    (∀ b : List Nat, decodeUtf8 b = none →
      Cli.search_phrase_in_pdf (some b) ['h'] = .error Cli.PdfError.utf8Err) ∧
    (∀ (b : List Nat) (s : List Char), decodeUtf8 b = some s →
      Cli.search_phrase_in_pdf (some b) ['h'] =
        .ok (rustContains b (encodeStr ['h']))) ∧
    (∀ (es : List Entry) (p : List Char), p ∈ Cli.search_pdf_files es ['h'] →
      ∃ e ∈ es, e.path = p ∧ e.is_file = true ∧ e.extension = some pdfExt ∧
        Cli.search_phrase_in_pdf e.content ['h'] = .ok true)) :=
  ⟨by decide, utf8_gate ['h'] (by decide)⟩

/-! ### The archive step -/

theorem zipLoop_read_error (pre post : List (List Char × Option (List Nat)))
    (p : List Char) (hpre : ∀ x ∈ pre, x.2.isSome = true) :
    Cli.zipLoop (pre ++ (p, none) :: post) = .ioErr := by
  induction pre with
  | nil => rfl
  | cons x t ih =>
    obtain ⟨px, cx⟩ := x
    cases cx with
    | none =>
      have := hpre (px, none) (by simp)
      simp at this
    | some b =>
      simp only [List.cons_append, Cli.zipLoop]
      exact ih (fun y hy => hpre y (by simp [hy]))

/-- C6 counterexample: when the output archive cannot be created, the
`File::create(&path).unwrap()` in `zip_files` panics — aborting the
process — instead of failing with an `ArchiveError` value. -/
theorem zip_create_failure_aborts :
    Cli.zip_files false [(['a'], some [])] = Cli.ZipResult.crashed ∧
    Cli.ZipResult.crashed ≠ Cli.ZipResult.ioErr := by decide

/-- C6 (amended): if some matched file cannot be read, `zip_files` fails
immediately with the first read error, returning `Err(ZipError::Io(..))`
— which does not name the offending path — and leaving the remaining
files unprocessed; if the output archive cannot be created the process
panics instead of producing an error value.  The search results are
printed before the archive step runs, so they remain valid and reported
whatever the archive outcome (`main` then `.expect`s the result, ending
the process on error — after the results were printed). -/
theorem zip_read_error_behavior
    (pre post : List (List Char × Option (List Nat))) (p : List Char)
    (hpre : ∀ x ∈ pre, x.2.isSome = true) :
    Cli.zip_files true (pre ++ (p, none) :: post) = Cli.ZipResult.ioErr ∧
    (∀ (results : List (List Char)) (zf cc : Bool)
        (rf : List Char → Option (List Nat)),
      (Cli.runMain results zf cc rf).1 = results) ∧
    (∀ (results : List (List Char)) (rf : List Char → Option (List Nat)),
      Cli.runMain results true false rf =
        (results, some Cli.ZipResult.crashed)) := by
  refine ⟨?_, fun _ _ _ _ => rfl, fun _ _ => rfl⟩
  rw [Cli.zip_files, if_pos rfl]
  exact zipLoop_read_error pre post p hpre

/-- Witness for C6's amended theorem: a readable file followed by an
unreadable one. -/
theorem zip_read_error_behavior_witness :
    (∀ x ∈ ([(['a'], some [])] : List (List Char × Option (List Nat))),
      x.2.isSome = true) ∧
    (Cli.zip_files true ([(['a'], some [])] ++ (['b'], none) :: []) =
      Cli.ZipResult.ioErr ∧
    (∀ (results : List (List Char)) (zf cc : Bool)
        (rf : List Char → Option (List Nat)),
      (Cli.runMain results zf cc rf).1 = results) ∧
    (∀ (results : List (List Char)) (rf : List Char → Option (List Nat)),
      Cli.runMain results true false rf =
        (results, some Cli.ZipResult.crashed))) :=
  ⟨by decide, zip_read_error_behavior [(['a'], some [])] [] ['b'] (by decide)⟩

/-! ### Argument handling -/

/-- C8 counterexample: in `["-z", "bogus"]` the argument `bogus` is not
one of `-s`, `-d`, `-z`, `-h` and is not a consumed value, yet the
process does not terminate with a diagnostic: `-z` breaks out of the
scanning loop, `bogus` is never examined, and the search proceeds in zip
mode. -/
theorem parseArgs_after_z_not_rejected :
    Cli.parseArgs [Cli.zFlag, "bogus".toList] = .run [] [] true ∧
    "bogus".toList ∉ [Cli.sFlag, Cli.dFlag, Cli.zFlag, Cli.hFlag] := by
  decide

theorem parseLoop_invalid (a : List Char)
    (ha : a ∉ [Cli.sFlag, Cli.dFlag, Cli.zFlag, Cli.hFlag]) :
    ∀ (pairs : List (Bool × List Char)) (rest : List (List Char))
      (phrase : List Char) (dirs : List (List Char)),
      Cli.parseLoop (sdArgs pairs ++ a :: rest) phrase dirs = .invalidArg a := by
  simp only [List.mem_cons, List.mem_singleton, not_or] at ha
  obtain ⟨has, had, haz, hah, -⟩ := ha
  intro pairs
  induction pairs with
  | nil =>
    intro rest phrase dirs
    cases rest with
    | nil =>
      simp only [sdArgs, List.nil_append, Cli.parseLoop]
      rw [if_neg has, if_neg had, if_neg haz, if_neg hah]
    | cons r rs =>
      simp only [sdArgs, List.nil_append, Cli.parseLoop]
      rw [if_neg has, if_neg had, if_neg haz, if_neg hah]
  | cons pr t ih =>
    intro rest phrase dirs
    obtain ⟨b, v⟩ := pr
    cases b with
    | true =>
      simp only [sdArgs, List.cons_append, Cli.parseLoop, if_true]
      exact ih rest v dirs
    | false =>
      simp only [sdArgs, List.cons_append, Cli.parseLoop, if_true]
      exact ih rest phrase (dirs ++ [v])

/-- C8 (amended): an argument outside `{-s, -d, -z, -h}` that the
left-to-right scan actually examines — i.e. one reached after any
number of well-formed `-s <value>` / `-d <value>` pairs, before any
`-z` or `-h` — makes `main` print the `Invalid argument` diagnostic and
return before any search work or thread spawn (the `invalidArg`
outcome).  Arguments after a `-z` (which breaks the loop) or `-h`
(which returns) are never examined at all, so an invalid argument there
does NOT terminate the process. -/
theorem parseArgs_invalid_scanned (a : List Char)
    (ha : a ∉ [Cli.sFlag, Cli.dFlag, Cli.zFlag, Cli.hFlag])
    (pairs : List (Bool × List Char)) (rest : List (List Char)) :
    Cli.parseArgs (sdArgs pairs ++ a :: rest) = .invalidArg a :=
  parseLoop_invalid a ha pairs rest [] []

/-- Witness for C8's amended theorem: `-s p bogus -d x`. -/
theorem parseArgs_invalid_scanned_witness :
    "bogus".toList ∉ [Cli.sFlag, Cli.dFlag, Cli.zFlag, Cli.hFlag] ∧
    Cli.parseArgs (sdArgs [(true, ['p'])] ++ "bogus".toList :: [Cli.dFlag, ['x']]) =
      .invalidArg "bogus".toList :=
  ⟨by decide,
    parseArgs_invalid_scanned "bogus".toList (by decide) [(true, ['p'])]
      [Cli.dFlag, ['x']]⟩

/-! ### GUI directory results are placeholders -/

/-- C10: every `SearchResult` the GUI directory search reports has
`match_count` 1 and a single placeholder `MatchResult` at position 0,
whatever the file's text and however many occurrences it really has. -/
theorem dir_results_placeholder (extract : List Nat → Option (List Char))
    (es : List Entry) (phrase : List Char) (r : Gui.SearchResult)
    (hr : r ∈ Gui.perform_search_directory extract es phrase) :
    r.match_count = 1 ∧ r.matchList.map MatchResult.position = [0] ∧
    r.matchList.length = 1 := by
  rw [Gui.perform_search_directory, Gui.dirSearchResults] at hr
  obtain ⟨p, hp, rfl⟩ := List.mem_map.mp hr
  exact ⟨rfl, rfl, rfl⟩

/-- Witness for C10's theorem: one matching file. -/
theorem dir_results_placeholder_witness :
    (⟨['a'], Gui.baseName ['a'], 1,
      [⟨encodeStr (Gui.foundMsg (Gui.baseName ['a'])), 0⟩]⟩ : Gui.SearchResult) ∈
      Gui.perform_search_directory (fun _ => some ['h'])
        [⟨['a'], true, some pdfExt, some []⟩] ['h'] ∧
    ((⟨['a'], Gui.baseName ['a'], 1,
        [⟨encodeStr (Gui.foundMsg (Gui.baseName ['a'])), 0⟩]⟩ :
          Gui.SearchResult).match_count = 1 ∧
      ((⟨['a'], Gui.baseName ['a'], 1,
        [⟨encodeStr (Gui.foundMsg (Gui.baseName ['a'])), 0⟩]⟩ :
          Gui.SearchResult).matchList.map MatchResult.position = [0]) ∧
      (⟨['a'], Gui.baseName ['a'], 1,
        [⟨encodeStr (Gui.foundMsg (Gui.baseName ['a'])), 0⟩]⟩ :
          Gui.SearchResult).matchList.length = 1) :=
  ⟨by decide,
    dir_results_placeholder (fun _ => some ['h'])
      [⟨['a'], true, some pdfExt, some []⟩] ['h'] _ (by decide)⟩
